import Mathlib

/-!
Verification of the notes-api search core: pagination policy, filter
composition, the two-phase full-text search path, and the field-projection
deriver, modelled as a shallow embedding of the TypeScript source.
-/

namespace NotesApi

/-!
Pagination policy, from src/src/utils/graphql/pagination.graphql.ts,
function calcHasMorePages (lines 16-29).  JS Math.floor on nonnegative
integers is Nat division.
-/

def calcHasMorePages (totalCount limit offset : Nat) : Bool :=
  let totalPages0 : Nat := totalCount / limit
  let totalPages : Nat :=
    if totalCount % limit ≠ 0 then totalPages0 + 1 else totalPages0
  let currentPage : Nat := offset / limit + 1
  decide (currentPage < totalPages)

/-!
Field-projection deriver, from src/src/utils/resolvers/utils.resolvers.ts.
JS strings are modelled as lists of characters, so that the JS
String.prototype.split, startsWith and endsWith used by the source can be
given exact executable counterparts.
-/

/-- A JS string, as a list of characters. -/
abbrev Str := List Char

/-- The GraphQLMappedFields shape of the source: flat leaf fields plus a
JS object of nested sub-trees, modelled as an association list in key
insertion order. -/
inductive GraphQLMappedFields where
  | mk (flatFields : List Str) (nestedFields : List (Str × GraphQLMappedFields))

def GraphQLMappedFields.flatFields : GraphQLMappedFields → List Str
  | .mk f _ => f

def GraphQLMappedFields.nestedFields :
    GraphQLMappedFields → List (Str × GraphQLMappedFields)
  | .mk _ n => n

/-- JS property lookup on an object literal, first binding wins. -/
def lookupKey (l : List (Str × GraphQLMappedFields)) (key : Str) :
    Option GraphQLMappedFields :=
  match l with
  | [] => none
  | (k, v) :: rest => if k = key then some v else lookupKey rest key

/-- The JS `in` operator on an object literal. -/
def hasKey (l : List (Str × GraphQLMappedFields)) (key : Str) : Bool :=
  (lookupKey l key).isSome

/-- JS String.prototype.split on the single-character separator. The
empty string splits to a list holding one empty string, matching JS. -/
def splitOnDot : Str → List Str
  | [] => [[]]
  | c :: cs =>
    if c = '.' then
      [] :: splitOnDot cs
    else
      match splitOnDot cs with
      | [] => [[c]]
      | s :: rest => (c :: s) :: rest

def idStr : Str := ['i', 'd']

def idSuffix : Str := ['I', 'd']

mutual

/-- getFlattenFields from utils.resolvers.ts (lines 69-111): flattens the
requested-field tree into dotted column names, rewriting foreign-key-like
leaves to the generic identity column. -/
def getFlattenFields (f : GraphQLMappedFields) (pre rootIdFieldReplacement : Str) :
    List Str :=
  match f with
  | .mk flat nested =>
    flat.map (fun field =>
      let parts := splitOnDot pre
      if parts.length > 1 then
        let currentKey := parts.getD (parts.length - 2) []
        if currentKey.isPrefixOf field && idSuffix.isSuffixOf field then
          pre ++ idStr
        else
          pre ++ field
      else
        if field = rootIdFieldReplacement then idStr
        else pre ++ field)
    ++ getFlattenFieldsNested nested pre

/-- The for-in loop of getFlattenFields over the nested sub-trees; each
recursive call passes the extended dotted prefix and an empty root-id
replacement, exactly as the source does. -/
def getFlattenFieldsNested (l : List (Str × GraphQLMappedFields)) (pre : Str) :
    List Str :=
  match l with
  | [] => []
  | (key, sub) :: rest =>
    getFlattenFields sub (pre ++ key ++ ['.']) [] ++ getFlattenFieldsNested rest pre

end

mutual

/-- Claim-side restatement of the flatten rewrite: the enclosing nested
key is tracked directly instead of being recovered by splitting the dotted
prefix. A leaf in a nested context starting with the enclosing key and
ending in Id becomes the prefixed identity column; at the root the
designated alias becomes the identity column; all other leaves only gain
the dotted prefix. -/
def specFlattenFields (f : GraphQLMappedFields) (pre : Str)
    (ctxKey : Option Str) (rootAlias : Str) : List Str :=
  match f with
  | .mk flat nested =>
    flat.map (fun field =>
      match ctxKey with
      | some k =>
        if k.isPrefixOf field && idSuffix.isSuffixOf field then pre ++ idStr
        else pre ++ field
      | none =>
        if field = rootAlias then idStr
        else pre ++ field)
    ++ specFlattenFieldsNested nested pre

def specFlattenFieldsNested (l : List (Str × GraphQLMappedFields)) (pre : Str) :
    List Str :=
  match l with
  | [] => []
  | (key, sub) :: rest =>
    specFlattenFields sub (pre ++ key ++ ['.']) (some key) []
      ++ specFlattenFieldsNested rest pre

end

mutual

/-- Every nested key of the tree is free of dots, as GraphQL field names
are. -/
def keysDotFree : GraphQLMappedFields → Bool
  | .mk _ nested => keysDotFreeNested nested

def keysDotFreeNested : List (Str × GraphQLMappedFields) → Bool
  | [] => true
  | (key, sub) :: rest =>
    !key.contains '.' && keysDotFree sub && keysDotFreeNested rest

end

/-- The dotted prefix accumulated after descending through the listed
keys: every key followed by a dot. -/
def preOf : List Str → Str
  | [] => []
  | k :: rest => k ++ '.' :: preOf rest

mutual

/-- getAllNestedKeys from utils.resolvers.ts (lines 50-67): the flattened
populate list of dotted relation paths. The loop first pushes every
sub-tree recursion, then the keys of the current level are appended. -/
def getAllNestedKeys (f : GraphQLMappedFields) (pre : Str) : List Str :=
  match f with
  | .mk _ nested =>
    getAllNestedKeysNested nested pre
      ++ nested.map (fun p => pre ++ p.1)

def getAllNestedKeysNested (l : List (Str × GraphQLMappedFields)) (pre : Str) :
    List Str :=
  match l with
  | [] => []
  | (key, sub) :: rest =>
    getAllNestedKeys sub (pre ++ key ++ ['.']) ++ getAllNestedKeysNested rest pre

end

mutual

/-- Claim-side enumeration of every nested key at every depth with its
dotted prefix, parents first: used as the order-insensitive reference for
the populate list. -/
def specKeysParentFirst (f : GraphQLMappedFields) (pre : Str) : List Str :=
  match f with
  | .mk _ nested =>
    nested.map (fun p => pre ++ p.1) ++ specKeysParentFirstNested nested pre

def specKeysParentFirstNested (l : List (Str × GraphQLMappedFields)) (pre : Str) :
    List Str :=
  match l with
  | [] => []
  | (key, sub) :: rest =>
    specKeysParentFirst sub (pre ++ key ++ ['.'])
      ++ specKeysParentFirstNested rest pre

end

/-!
Data model and filter composition, from searchNotes in
src/src/resolvers/language.resolver.ts (lines 193-372).
-/

/-- A note row as the search path sees it: identity, logical date, the two
many-to-one reference ids, and the ids of the associated tags. -/
structure Note where
  id : Nat
  date : Int
  sourceId : Nat
  languageId : Nat
  tags : List Nat
deriving DecidableEq

/-- PaginationInput from pagination.graphql.ts. -/
structure PaginationInput where
  limit : Nat
  offset : Nat
deriving DecidableEq

/-- SearchNotesInput: the filter arguments of searchNotes. Absent GraphQL
arguments are none. -/
structure SearchNotesInput where
  fromDate : Int
  toDate : Int
  sourceIds : Option (List Nat)
  languageIds : Option (List Nat)
  tagIds : Option (List Nat)
  searchPhrase : Option String

/-- The composed relational filter object of searchNotes (lines 221-255):
the date range is always present, the three id-set conditions only when
the corresponding argument was supplied. -/
structure NoteFilters where
  dateGte : Int
  dateLte : Int
  source : Option (List Nat)
  language : Option (List Nat)
  tagsTagIdIn : Option (List Nat)
deriving DecidableEq

/-- The incremental construction of the filter object in searchNotes:
start from the date range, then spread in each optional id-set condition
when its argument is defined. -/
def buildFilters (input : SearchNotesInput) : NoteFilters :=
  let filters : NoteFilters :=
    { dateGte := input.fromDate, dateLte := input.toDate,
      source := none, language := none, tagsTagIdIn := none }
  let filters :=
    match input.sourceIds with
    | some ids => { filters with source := some ids }
    | none => filters
  let filters :=
    match input.languageIds with
    | some ids => { filters with language := some ids }
    | none => filters
  match input.tagIds with
  | some ids => { filters with tagsTagIdIn := some ids }
  | none => filters

/-- Evaluation of the composed filter on a note row, with the storage
semantics of the query operators: gte and lte are inclusive bounds, in is
list membership, and the nested tags condition holds when any associated
tag id is in the set. -/
def matchesFilters (f : NoteFilters) (n : Note) : Bool :=
  decide (f.dateGte ≤ n.date) && decide (n.date ≤ f.dateLte)
  && (match f.source with
      | none => true
      | some ids => ids.contains n.sourceId)
  && (match f.language with
      | none => true
      | some ids => ids.contains n.languageId)
  && (match f.tagsTagIdIn with
      | none => true
      | some ids => n.tags.any (fun t => ids.contains t))

/-- Claim-side predicate of P3: date within both inclusive bounds, and
each id-set condition either absent or satisfied, with the tag condition
an any-match. -/
def noteMatchesSpec (input : SearchNotesInput) (n : Note) : Prop :=
  (input.fromDate ≤ n.date ∧ n.date ≤ input.toDate)
  ∧ (input.sourceIds = none
      ∨ ∃ ids, input.sourceIds = some ids ∧ n.sourceId ∈ ids)
  ∧ (input.languageIds = none
      ∨ ∃ ids, input.languageIds = some ids ∧ n.languageId ∈ ids)
  ∧ (input.tagIds = none
      ∨ ∃ ids, input.tagIds = some ids ∧ ∃ t ∈ n.tags, t ∈ ids)

/-!
Sort specification handling, searchNotes lines 278-305. The source enum
Sort is renamed SortDirection here because Sort is reserved in Lean.
-/

inductive SortDirection where
  | asc
  | desc
deriving DecidableEq

inductive NoteSortField where
  | date
  | languageId
  | sourceId
deriving DecidableEq

structure NoteSortInput where
  field : NoteSortField
  sort : SortDirection

structure NoteMultiSortInput where
  sorts : List NoteSortInput

/-- One order-by term as searchNotes builds them: a date term, a term on
the identity column of the related language or source, or the nested term
on the display order of the tag reached through the tags relation. -/
inductive Sorter where
  | date (dir : SortDirection)
  | languageId (dir : SortDirection)
  | sourceId (dir : SortDirection)
  | tagsTagDisplayOrder (dir : SortDirection)
deriving DecidableEq

/-- The projection condition of searchNotes lines 298-301: the items key
is present in the requested tree and the tags relation is present inside
it. -/
def tagsInProjection (mf : GraphQLMappedFields) : Bool :=
  match lookupKey mf.nestedFields ("items".toList) with
  | some items => hasKey items.nestedFields ("tags".toList)
  | none => false

/-- The sorter list built by searchNotes lines 278-305: with a sort input,
one term per entry in listed order; without one, date ascending, plus the
nested tag display-order term exactly when tags are in the requested
projection. -/
def buildSorters (sortInput : Option NoteMultiSortInput)
    (mf : GraphQLMappedFields) : List Sorter :=
  match sortInput with
  | some si =>
    si.sorts.foldl (fun acc v =>
      acc ++ [match v.field with
        | NoteSortField.date => Sorter.date v.sort
        | NoteSortField.languageId => Sorter.languageId v.sort
        | NoteSortField.sourceId => Sorter.sourceId v.sort]) []
  | none =>
    let sorters := [Sorter.date SortDirection.asc]
    if tagsInProjection mf then
      sorters ++ [Sorter.tagsTagDisplayOrder SortDirection.asc]
    else
      sorters

/-!
The text-match resolver fetchNoteIdsBySearchPhrase, language.resolver.ts
lines 422-490, and the raw FTS5 match expression it interpolates.
-/

/-- The text placed between the single quotes of the raw MATCH expression
built at lines 451 and 468: the search phrase is interpolated verbatim
into the field-scoped prefix-match syntax, with no quoting or escaping
applied. -/
def innerMatchExpr (phrase : String) : String :=
  "title:\"" ++ phrase ++ "\" * OR body:\"" ++ phrase ++ "\" * "

/-- Split a character list on every double-quote character; used to read
back which segments of the match expression stand inside FTS5 string
quotes. -/
def splitOnQuote : List Char → List (List Char)
  | [] => [[]]
  | c :: cs =>
    if c = '"' then
      [] :: splitOnQuote cs
    else
      match splitOnQuote cs with
      | [] => [[c]]
      | s :: rest => (c :: s) :: rest

/-- The segments at odd positions, i.e. the segments standing between an
opening and a closing quote. -/
def oddSlots {α : Type} : List α → List α
  | [] => []
  | [_] => []
  | _ :: b :: rest => b :: oddSlots rest

/-- The quoted string literals of a match expression, in order. When the
phrase is quoted correctly these are exactly the two copies of the
phrase. -/
def quotedTerms (s : String) : List (List Char) :=
  oddSlots (splitOnQuote s.toList)

/-- A search phrase containing match-syntax metacharacters, used to show
that the interpolation at line 451 does not keep the phrase a literal
term. -/
def phraseBad : String := "x\" OR body:\"y"

/-- The shape of one auxiliary query as fetchNoteIdsBySearchPhrase builds
it: the cloned inner query carries the composed filters and ordering;
count aggregation, the text-index join with its match expression, the
id-only selection and limit and offset are then layered on. -/
structure QuerySpec where
  filters : NoteFilters
  orderBy : List Sorter
  ftsJoin : Bool
  matchExpr : Option String
  countDistinctNoteId : Bool
  selectCols : List String
  limit : Option Nat
  offset : Option Nat

/-- The storage connection: executes a count query or an id-select query.
Left abstract so that every theorem quantifies over what the engine
returns. -/
structure DB where
  executeCount : QuerySpec → Nat
  executeIds : QuerySpec → List Nat

/-- The inner query builder of line 430: filters and ordering only. -/
def innerQb (filters : NoteFilters) (sorters : List Sorter) : QuerySpec :=
  { filters := filters, orderBy := sorters, ftsJoin := false,
    matchExpr := none, countDistinctNoteId := false, selectCols := [],
    limit := none, offset := none }

/-- The count query of lines 439-453: clone of the inner query, distinct
count of note ids, text-index join, match predicate, no limit, no
offset. -/
def knexCountQuery (phrase : String) (filters : NoteFilters)
    (sorters : List Sorter) : QuerySpec :=
  { innerQb filters sorters with
    countDistinctNoteId := true,
    ftsJoin := true,
    matchExpr := some (innerMatchExpr phrase) }

/-- The id-select query of lines 455-472: clone of the inner query,
selecting only the note id, text-index join, match predicate, and the
limit and offset of the pagination request. -/
def knexSelectQuery (phrase : String) (filters : NoteFilters)
    (sorters : List Sorter) (pagination : PaginationInput) : QuerySpec :=
  { innerQb filters sorters with
    selectCols := ["note_id"],
    ftsJoin := true,
    matchExpr := some (innerMatchExpr phrase),
    offset := some pagination.offset,
    limit := some pagination.limit }

/-- fetchNoteIdsBySearchPhrase (lines 422-490): execute the count query,
execute the id-select query, and return the triple of total count, id
list, and the pagination policy applied to the total count. -/
def fetchNoteIdsBySearchPhrase (phrase : String) (db : DB)
    (filters : NoteFilters) (sorters : List Sorter)
    (pagination : PaginationInput) : Nat × List Nat × Bool :=
  let totalCount := db.executeCount (knexCountQuery phrase filters sorters)
  let idsList := db.executeIds (knexSelectQuery phrase filters sorters pagination)
  (totalCount, idsList, calcHasMorePages totalCount pagination.limit pagination.offset)

/-!
Branch B of searchNotes, lines 307-349: the row fetch by id set, the
lookup map, and the reordering of the fetched rows into the id order.
-/

/-- The noteMap reduce of lines 334-340: later rows overwrite earlier ones
under the same id, lookups of absent ids give undefined. -/
def buildNoteMap (notes : List Note) : Nat → Option Note :=
  notes.foldl (fun map note => fun k => if k = note.id then some note else map k)
    (fun _ => none)

/-- The result envelope. Items are optional because the reorder writes an
undefined hole for an id with no fetched row. -/
structure NotesPaginated where
  items : List (Option Note)
  totalCount : Nat
  hasNextPage : Bool

/-- Branch B and its observable storage effect: the envelope together
with the id sets of the row-fetch queries that were issued. -/
structure BranchBOutcome where
  envelope : NotesPaginated
  issuedIdFetches : List (List Nat)

/-- The phrase-present branch of searchNotes (lines 308-349): unwrap the
resolver triple, always issue the row fetch over the returned id set,
build the lookup map, reorder by the id list, and return the envelope
with the resolver count and flag. -/
def searchNotesBranchB (results : Nat × List Nat × Bool)
    (fetchRows : List Nat → List Note) : BranchBOutcome :=
  let totalCount := results.1
  let ids := results.2.1
  let hasMorePages := results.2.2
  let notes := fetchRows ids
  let noteMap := buildNoteMap notes
  let sortedByIdsArrayNotes := ids.map (fun id => noteMap id)
  { envelope :=
      { items := sortedByIdsArrayNotes, totalCount := totalCount,
        hasNextPage := hasMorePages },
    issuedIdFetches := [ids] }

/-- The whole phrase-present path: resolve ids by phrase, then run
Branch B. -/
def searchNotesTextBranch (phrase : String) (db : DB)
    (filters : NoteFilters) (sorters : List Sorter)
    (pagination : PaginationInput) (fetchRows : List Nat → List Note) :
    BranchBOutcome :=
  searchNotesBranchB (fetchNoteIdsBySearchPhrase phrase db filters sorters pagination)
    fetchRows

/-!
Concrete inputs used by counterexamples and witnesses.
-/

/-- A requested-field tree with two sibling sub-objects that both hold a
nested sub-object. -/
def exampleSiblingTree : GraphQLMappedFields :=
  .mk [] [(['a'], .mk [] [(['c'], .mk [] [])]),
          (['b'], .mk [] [(['d'], .mk [] [])])]

/-- A requested-field tree asking for the note id and title plus a source
sub-object with its foreign-key field and name. -/
def exampleProjectionTree : GraphQLMappedFields :=
  .mk ["noteId".toList, "title".toList]
      [("source".toList, .mk ["sourceId".toList, "name".toList] [])]

/-- Filters of an arbitrary concrete search used in counterexamples. -/
def exampleFilters : NoteFilters :=
  { dateGte := 0, dateLte := 10, source := none, language := none,
    tagsTagIdIn := none }

/-- A storage connection whose count query finds five matches while the
id page at the given offset is empty. -/
def exampleDbEmptyPage : DB :=
  { executeCount := fun _ => 5, executeIds := fun _ => [] }

theorem totalPages_eq_ceil (t l : Nat) (hl : 1 ≤ l) :
    (if t % l ≠ 0 then t / l + 1 else t / l) = (t + l - 1) / l := by
  obtain ⟨q, r, hr, rfl⟩ : ∃ q r, r < l ∧ t = l * q + r :=
    ⟨t / l, t % l, Nat.mod_lt _ (by omega), (Nat.div_add_mod t l).symm⟩
  have hd : (l * q + r) / l = q := by
    rw [Nat.mul_add_div (by omega), Nat.div_eq_of_lt hr]
    omega
  have hm : (l * q + r) % l = r := by
    rw [Nat.mul_add_mod, Nat.mod_eq_of_lt hr]
  rw [hd, hm]
  by_cases h : r = 0
  · subst h
    have h1 : l * q + 0 + l - 1 = l * q + (l - 1) := by omega
    rw [if_neg (by simp), h1, Nat.mul_add_div (by omega),
      Nat.div_eq_of_lt (by omega : l - 1 < l)]
    omega
  · have hl2 : l * (q + 1) = l * q + l := by ring
    have h1 : l * q + r + l - 1 = l * (q + 1) + (r - 1) := by omega
    rw [if_pos h, h1, Nat.mul_add_div (by omega),
      Nat.div_eq_of_lt (by omega : r - 1 < l)]

/-- C4: with limit at least 1 (a precondition the function does not itself
check), calcHasMorePages returns the boolean of
floor(offset / limit) + 1 < ceil(totalCount / limit); it is false when
totalCount is zero, and false (not an error) whenever the current page is at
or beyond the last page. -/
theorem calcHasMorePages_spec (t l o : Nat) (hl : 1 ≤ l) :
    calcHasMorePages t l o = decide (o / l + 1 < (t + l - 1) / l)
    ∧ (t = 0 → calcHasMorePages t l o = false)
    ∧ ((t + l - 1) / l ≤ o / l + 1 → calcHasMorePages t l o = false) := by
  refine ⟨?_, ?_, ?_⟩
  · simp only [calcHasMorePages]
    rw [totalPages_eq_ceil t l hl]
  · intro ht
    subst ht
    simp [calcHasMorePages, Nat.zero_div, Nat.zero_mod]
  · intro hle
    simp only [calcHasMorePages]
    rw [totalPages_eq_ceil t l hl]
    simpa using hle

theorem calcHasMorePages_spec_witness :
    calcHasMorePages 5 2 0 = decide (0 / 2 + 1 < (5 + 2 - 1) / 2)
    ∧ (5 = 0 → calcHasMorePages 5 2 0 = false)
    ∧ ((5 + 2 - 1) / 2 ≤ 0 / 2 + 1 → calcHasMorePages 5 2 0 = false) :=
  calcHasMorePages_spec 5 2 0 (by decide)

theorem calcHasMorePages_zero (l o : Nat) : calcHasMorePages 0 l o = false := by
  simp [calcHasMorePages]

/-- C3: a note satisfies the composed relational filter iff its date lies
within both inclusive bounds, its source id is in sourceIds when that set
was supplied, its language id is in languageIds when that set was
supplied, and at least one associated tag id is in tagIds when that set
was supplied. -/
theorem matchesFilters_buildFilters_iff (input : SearchNotesInput) (n : Note) :
    matchesFilters (buildFilters input) n = true ↔ noteMatchesSpec input n := by
  rcases input with ⟨fromDate, toDate, sourceIds, languageIds, tagIds, phrase⟩
  rcases sourceIds with _ | srcs <;> rcases languageIds with _ | langs <;>
    rcases tagIds with _ | tags <;>
      simp [matchesFilters, buildFilters, noteMatchesSpec, List.any_eq_true,
        and_assoc]

/-- C7: with no sort specification, the ordering defaults to date
ascending, and the nested tag display-order ascending term is appended
exactly when the tags relation is inside the items subtree of the
requested projection. -/
theorem buildSorters_default (mf : GraphQLMappedFields) :
    buildSorters none mf =
      (if tagsInProjection mf then
        [Sorter.date SortDirection.asc,
         Sorter.tagsTagDisplayOrder SortDirection.asc]
      else [Sorter.date SortDirection.asc])
    ∧ ((Sorter.tagsTagDisplayOrder SortDirection.asc ∈ buildSorters none mf)
        ↔ tagsInProjection mf = true) := by
  by_cases h : tagsInProjection mf <;> simp [buildSorters, h]

/-- C2: the text-match resolver builds exactly two auxiliary queries from
the same cloned inner query, so both carry the same filter predicate,
text-index join, match expression and ordering; the count query aggregates
with no limit or offset and its result is the total match count, the
select query carries the pagination limit and offset and returns the id
page, bounded by the limit under the storage contract; the has-more flag
is the pagination policy applied to the total count. -/
theorem fetchNoteIdsBySearchPhrase_spec (phrase : String) (db : DB)
    (filters : NoteFilters) (sorters : List Sorter)
    (pagination : PaginationInput)
    (hdb : ∀ q l, q.limit = some l → (db.executeIds q).length ≤ l) :
    let cq := knexCountQuery phrase filters sorters
    let sq := knexSelectQuery phrase filters sorters pagination
    let r := fetchNoteIdsBySearchPhrase phrase db filters sorters pagination
    cq.filters = filters ∧ sq.filters = filters
    ∧ cq.orderBy = sorters ∧ sq.orderBy = sorters
    ∧ cq.ftsJoin = true ∧ sq.ftsJoin = true
    ∧ cq.matchExpr = some (innerMatchExpr phrase)
    ∧ sq.matchExpr = cq.matchExpr
    ∧ cq.countDistinctNoteId = true ∧ cq.limit = none ∧ cq.offset = none
    ∧ sq.selectCols = ["note_id"]
    ∧ sq.limit = some pagination.limit ∧ sq.offset = some pagination.offset
    ∧ r.1 = db.executeCount cq
    ∧ r.2.1 = db.executeIds sq
    ∧ r.2.1.length ≤ pagination.limit
    ∧ r.2.2 = calcHasMorePages r.1 pagination.limit pagination.offset := by
  refine ⟨rfl, rfl, rfl, rfl, rfl, rfl, rfl, rfl, rfl, rfl, rfl, rfl, rfl, rfl,
    rfl, rfl, ?_, rfl⟩
  exact hdb (knexSelectQuery phrase filters sorters pagination) pagination.limit rfl

theorem fetchNoteIdsBySearchPhrase_spec_witness :
    let cq := knexCountQuery "abc" exampleFilters []
    let sq := knexSelectQuery "abc" exampleFilters [] ⟨2, 0⟩
    let r := fetchNoteIdsBySearchPhrase "abc" exampleDbEmptyPage exampleFilters [] ⟨2, 0⟩
    cq.filters = exampleFilters ∧ sq.filters = exampleFilters
    ∧ cq.orderBy = [] ∧ sq.orderBy = []
    ∧ cq.ftsJoin = true ∧ sq.ftsJoin = true
    ∧ cq.matchExpr = some (innerMatchExpr "abc")
    ∧ sq.matchExpr = cq.matchExpr
    ∧ cq.countDistinctNoteId = true ∧ cq.limit = none ∧ cq.offset = none
    ∧ sq.selectCols = ["note_id"]
    ∧ sq.limit = some (2 : Nat) ∧ sq.offset = some (0 : Nat)
    ∧ r.1 = exampleDbEmptyPage.executeCount cq
    ∧ r.2.1 = exampleDbEmptyPage.executeIds sq
    ∧ r.2.1.length ≤ 2
    ∧ r.2.2 = calcHasMorePages r.1 2 0 :=
  fetchNoteIdsBySearchPhrase_spec "abc" exampleDbEmptyPage exampleFilters [] ⟨2, 0⟩
    (by intro q l h; simp [exampleDbEmptyPage])

/-- C5: the search phrase is interpolated verbatim into the raw
field-scoped prefix-match expression; on a phrase containing a double
quote the quoted string literals of the resulting expression are no
longer the two copies of the phrase, so the phrase is not interpreted as
a literal match term, while a metacharacter-free phrase is. -/
theorem innerMatchExpr_injection :
    innerMatchExpr phraseBad
        = "title:\"x\" OR body:\"y\" * OR body:\"x\" OR body:\"y\" * "
    ∧ quotedTerms (innerMatchExpr phraseBad) ≠ [phraseBad.toList, phraseBad.toList]
    ∧ quotedTerms (innerMatchExpr "note") = ["note".toList, "note".toList] := by
  refine ⟨?_, ?_, ?_⟩ <;> decide

/-- C6 as stated fails on the code: with a phrase whose id page is empty
while the count query still finds matches, the row fetch is issued anyway
over the empty id set, and the returned total count is the match count,
not zero. -/
theorem searchNotes_emptyIds_counterexample :
    (fetchNoteIdsBySearchPhrase "abc" exampleDbEmptyPage exampleFilters []
      ⟨2, 10⟩).2.1 = []
    ∧ ¬ ((searchNotesTextBranch "abc" exampleDbEmptyPage exampleFilters []
          ⟨2, 10⟩ (fun _ => [])).issuedIdFetches = []
        ∧ (searchNotesTextBranch "abc" exampleDbEmptyPage exampleFilters []
          ⟨2, 10⟩ (fun _ => [])).envelope.totalCount = 0) := by
  refine ⟨rfl, ?_⟩
  intro h
  exact absurd h.1 (by decide)

/-- C6 amended: when the id page comes back empty the row fetch is still
issued, with the empty id set; the envelope then has no items, carries
the count query result as total count and the pagination policy flag, and
in particular is the empty envelope with a false flag when the count is
zero. -/
theorem searchNotes_emptyIds_amended (phrase : String) (db : DB)
    (filters : NoteFilters) (sorters : List Sorter)
    (pagination : PaginationInput) (fetchRows : List Nat → List Note)
    (h : db.executeIds (knexSelectQuery phrase filters sorters pagination) = []) :
    let r := searchNotesTextBranch phrase db filters sorters pagination fetchRows
    let cnt := db.executeCount (knexCountQuery phrase filters sorters)
    r.issuedIdFetches = [[]]
    ∧ r.envelope.items = []
    ∧ r.envelope.totalCount = cnt
    ∧ r.envelope.hasNextPage
        = calcHasMorePages cnt pagination.limit pagination.offset
    ∧ (cnt = 0 → r.envelope.hasNextPage = false) := by
  refine ⟨?_, ?_, rfl, rfl, ?_⟩
  · simp [searchNotesTextBranch, searchNotesBranchB, fetchNoteIdsBySearchPhrase, h]
  · simp [searchNotesTextBranch, searchNotesBranchB, fetchNoteIdsBySearchPhrase, h]
  · intro hz
    simp only [searchNotesTextBranch, searchNotesBranchB,
      fetchNoteIdsBySearchPhrase, hz]
    exact calcHasMorePages_zero pagination.limit pagination.offset

theorem searchNotes_emptyIds_amended_witness :
    let r := searchNotesTextBranch "abc" exampleDbEmptyPage exampleFilters []
      ⟨2, 10⟩ (fun _ => [])
    let cnt := exampleDbEmptyPage.executeCount (knexCountQuery "abc" exampleFilters [])
    r.issuedIdFetches = [[]]
    ∧ r.envelope.items = []
    ∧ r.envelope.totalCount = cnt
    ∧ r.envelope.hasNextPage = calcHasMorePages cnt 2 10
    ∧ (cnt = 0 → r.envelope.hasNextPage = false) :=
  searchNotes_emptyIds_amended "abc" exampleDbEmptyPage exampleFilters [] ⟨2, 10⟩
    (fun _ => []) rfl

theorem buildNoteMapStep_skip (notes : List Note) (m0 : Nat → Option Note)
    (i : Nat) (h : ∀ n ∈ notes, n.id ≠ i) :
    (notes.foldl
      (fun map note => fun k => if k = note.id then some note else map k) m0) i
      = m0 i := by
  induction notes generalizing m0 with
  | nil => rfl
  | cons n0 rest ih =>
    rw [List.foldl_cons, ih _ (fun n hn => h n (List.mem_cons_of_mem _ hn))]
    exact if_neg (h n0 (List.mem_cons_self n0 rest)).symm

theorem buildNoteMapStep_found (notes : List Note) (m0 : Nat → Option Note)
    (i : Nat) (h : ∃ n ∈ notes, n.id = i) :
    ∃ n, (notes.foldl
      (fun map note => fun k => if k = note.id then some note else map k) m0) i
        = some n ∧ n.id = i ∧ n ∈ notes := by
  induction notes generalizing m0 with
  | nil => rcases h with ⟨n, hn, _⟩; cases hn
  | cons n0 rest ih =>
    by_cases hrest : ∃ n ∈ rest, n.id = i
    · rcases ih _ hrest with ⟨n, hmap, hid, hmem⟩
      exact ⟨n, hmap, hid, List.mem_cons_of_mem _ hmem⟩
    · have h0 : n0.id = i := by
        rcases h with ⟨n, hn, hid⟩
        rcases List.mem_cons.mp hn with rfl | hn'
        · exact hid
        · exact absurd ⟨n, hn', hid⟩ hrest
      have hskip : ∀ n ∈ rest, n.id ≠ i := by
        intro n hn hid
        exact hrest ⟨n, hn, hid⟩
      refine ⟨n0, ?_, h0, List.mem_cons_self n0 rest⟩
      rw [List.foldl_cons, buildNoteMapStep_skip rest _ i hskip]
      exact if_pos h0.symm

theorem buildNoteMap_not_found (notes : List Note) (i : Nat)
    (h : ∀ n ∈ notes, n.id ≠ i) : buildNoteMap notes i = none :=
  buildNoteMapStep_skip notes _ i h

theorem buildNoteMap_found (notes : List Note) (i : Nat)
    (h : ∃ n ∈ notes, n.id = i) :
    ∃ n, buildNoteMap notes i = some n ∧ n.id = i ∧ n ∈ notes :=
  buildNoteMapStep_found notes _ i h

/-- C1: on the phrase branch, when every returned id has a fetched row,
the identities of the items, in order, are exactly the resolver id list,
whatever order the bulk fetch returned its rows in. -/
theorem branchB_id_order (results : Nat × List Nat × Bool)
    (fetchRows : List Nat → List Note)
    (_hne : results.2.1 ≠ [])
    (hcov : ∀ i ∈ results.2.1, ∃ n ∈ fetchRows results.2.1, n.id = i) :
    ((searchNotesBranchB results fetchRows).envelope.items).map
        (fun o => o.map Note.id)
      = results.2.1.map some := by
  simp only [searchNotesBranchB, List.map_map]
  apply List.map_congr_left
  intro i hi
  rcases buildNoteMap_found (fetchRows results.2.1) i (hcov i hi) with
    ⟨n, hmap, hid, _⟩
  simp [Function.comp, hmap, hid]

theorem branchB_id_order_witness :
    ((searchNotesBranchB (1, [7], false)
        (fun _ => [⟨7, 0, 0, 0, []⟩])).envelope.items).map
        (fun o => o.map Note.id)
      = [7].map some :=
  branchB_id_order (1, [7], false) (fun _ => [⟨7, 0, 0, 0, []⟩]) (by decide)
    (by intro i hi; exact ⟨⟨7, 0, 0, 0, []⟩, by decide,
      by rcases List.mem_singleton.mp hi with rfl; rfl⟩)

/-- C10: on the phrase branch the items list always has one entry per
resolver id, and an id with no fetched row yields an undefined hole at
its position instead of being dropped or raising. -/
theorem branchB_holes (results : Nat × List Nat × Bool)
    (fetchRows : List Nat → List Note) :
    ((searchNotesBranchB results fetchRows).envelope.items).length
        = results.2.1.length
    ∧ (∀ (k i : Nat), results.2.1[k]? = some i →
        (∀ n ∈ fetchRows results.2.1, n.id ≠ i) →
        ((searchNotesBranchB results fetchRows).envelope.items)[k]?
          = some none) := by
  constructor
  · simp [searchNotesBranchB]
  · intro k i hk hmiss
    have hnone : buildNoteMap (fetchRows results.2.1) i = none :=
      buildNoteMap_not_found _ i hmiss
    simp [searchNotesBranchB, List.getElem?_map, hk, hnone]

theorem pair_sublist_append {α : Type} (a b : α) (l1 l2 : List α)
    (ha : a ∈ l1) (hb : b ∈ l2) : [a, b].Sublist (l1 ++ l2) := by
  have h1 : [a].Sublist l1 := List.singleton_sublist.mpr ha
  have h2 : [b].Sublist l2 := List.singleton_sublist.mpr hb
  simpa using h1.append h2

theorem splitOnDot_append (k t : Str) (hk : '.' ∉ k) :
    splitOnDot (k ++ '.' :: t) = k :: splitOnDot t := by
  induction k with
  | nil => simp [splitOnDot]
  | cons c cs ih =>
    have hc : ¬ c = '.' := fun h => hk (h ▸ List.mem_cons_self c cs)
    have hcs : '.' ∉ cs := fun hm => hk (List.mem_cons_of_mem c hm)
    rw [List.cons_append]
    simp only [splitOnDot, if_neg hc, ih hcs]

theorem splitOnDot_preOf (cs : List Str) (h : ∀ k ∈ cs, '.' ∉ k) :
    splitOnDot (preOf cs) = cs ++ [[]] := by
  induction cs with
  | nil => rfl
  | cons k rest ih =>
    simp only [preOf]
    rw [splitOnDot_append k (preOf rest) (h k (List.mem_cons_self k rest)),
      ih (fun k2 hk2 => h k2 (List.mem_cons_of_mem k hk2))]
    rfl

theorem preOf_append (cs : List Str) (k : Str) :
    preOf (cs ++ [k]) = preOf cs ++ k ++ ['.'] := by
  induction cs with
  | nil => simp [preOf]
  | cons c rest ih => simp [preOf, ih]

theorem getD_concat_penultimate {α : Type} (l : List α) (x d : α) (h : l ≠ []) :
    (l ++ [x]).getD ((l ++ [x]).length - 2) d = l.getLast h := by
  have hl : 0 < l.length := List.length_pos.mpr h
  have hlen : (l ++ [x]).length - 2 = l.length - 1 := by
    simp [List.length_append]
  rw [hlen, List.getD_eq_getElem?_getD,
    List.getElem?_append_left (by omega),
    List.getElem?_eq_getElem (by omega)]
  simp [List.getLast_eq_getElem]

theorem gmfInduction {P : GraphQLMappedFields → Prop}
    (h : ∀ flat nested,
      (∀ k sub, (k, sub) ∈ nested → P sub) → P (.mk flat nested))
    (f : GraphQLMappedFields) : P f := by
  cases f with
  | mk flat nested =>
    apply h
    intro k sub hmem
    exact gmfInduction h sub
termination_by sizeOf f
decreasing_by
  have h1 := List.sizeOf_lt_of_mem hmem
  simp only [Prod.mk.sizeOf_spec] at h1
  simp only [GraphQLMappedFields.mk.sizeOf_spec]
  omega

theorem getFlattenFields_eq_spec (f : GraphQLMappedFields) :
    ∀ (cs : List Str) (rootAlias : Str), keysDotFree f = true →
      (∀ k ∈ cs, '.' ∉ k) →
      getFlattenFields f (preOf cs) rootAlias
        = specFlattenFields f (preOf cs) cs.getLast? rootAlias := by
  induction f using gmfInduction with
  | h flat nested ih =>
    intro cs rootAlias hf hcs
    have hnested : keysDotFreeNested nested = true := by
      simpa [keysDotFree] using hf
    have loop : ∀ (l : List (Str × GraphQLMappedFields)),
        (∀ k sub, (k, sub) ∈ l → (k, sub) ∈ nested) →
        keysDotFreeNested l = true →
        getFlattenFieldsNested l (preOf cs)
          = specFlattenFieldsNested l (preOf cs) := by
      intro l
      induction l with
      | nil => intro _ _; rfl
      | cons q rest ihl =>
        rcases q with ⟨key, sub⟩
        intro hsubset hdl
        have hparts : ('.' ∉ key ∧ keysDotFree sub = true)
            ∧ keysDotFreeNested rest = true := by
          simpa [keysDotFreeNested] using hdl
        have hkmem : '.' ∉ key := hparts.1.1
        have hcs2 : ∀ k ∈ cs ++ [key], '.' ∉ k := by
          intro k hk
          rcases List.mem_append.mp hk with h1 | h1
          · exact hcs k h1
          · obtain rfl := List.mem_singleton.mp h1
            exact hkmem
        simp only [getFlattenFieldsNested, specFlattenFieldsNested]
        congr 1
        · have hpre : preOf cs ++ key ++ ['.'] = preOf (cs ++ [key]) :=
            (preOf_append cs key).symm
          rw [hpre,
            ih key sub (hsubset key sub (List.mem_cons_self _ _)) (cs ++ [key])
              [] hparts.1.2 hcs2,
            List.getLast?_concat]
        · exact ihl (fun k s hm => hsubset k s (List.mem_cons_of_mem _ hm))
            hparts.2
    simp only [getFlattenFields, specFlattenFields]
    congr 1
    · apply List.map_congr_left
      intro field _
      cases cs with
      | nil => rfl
      | cons c cs2 =>
        have hne2 : (c :: cs2) ≠ [] := List.cons_ne_nil c cs2
        have hsplit := splitOnDot_preOf (c :: cs2) hcs
        have hcur := getD_concat_penultimate (c :: cs2) [] [] hne2
        have hlast := List.getLast?_eq_getLast (c :: cs2) hne2
        simp only [hsplit, hcur, hlast]
        rw [if_pos (by simp)]
    · exact loop nested (fun _ _ hm => hm) hnested

/-- C8: starting from an empty prefix, the flattened field list of the
source deriver coincides with the claim-side rewrite that tracks the
enclosing nested key directly: a leaf in a nested context whose name
starts with the enclosing key and ends in Id becomes the prefixed
identity column, the root-level designated alias becomes the identity
column, and every other leaf only gains its dotted prefix. -/
theorem getFlattenFields_root_spec (f : GraphQLMappedFields) (rootAlias : Str)
    (hf : keysDotFree f = true) :
    getFlattenFields f [] rootAlias = specFlattenFields f [] none rootAlias := by
  have h := getFlattenFields_eq_spec f [] rootAlias hf (by intro k hk; cases hk)
  simpa [preOf] using h

theorem getFlattenFields_root_spec_witness :
    getFlattenFields exampleProjectionTree [] ("noteId".toList)
      = specFlattenFields exampleProjectionTree [] none ("noteId".toList) :=
  getFlattenFields_root_spec exampleProjectionTree ("noteId".toList) (by decide)

theorem getAllNestedKeys_perm (f : GraphQLMappedFields) :
    ∀ pre : Str,
      (getAllNestedKeys f pre).Perm (specKeysParentFirst f pre) := by
  induction f using gmfInduction with
  | h flat nested ih =>
    intro pre
    have loop : ∀ (l : List (Str × GraphQLMappedFields)),
        (∀ k sub, (k, sub) ∈ l → (k, sub) ∈ nested) →
        (getAllNestedKeysNested l pre).Perm
          (specKeysParentFirstNested l pre) := by
      intro l
      induction l with
      | nil => intro _; exact List.Perm.refl _
      | cons q rest ihl =>
        rcases q with ⟨key, sub⟩
        intro hsubset
        exact (ih key sub (hsubset _ _ (List.mem_cons_self _ _))
            (pre ++ key ++ ['.'])).append
          (ihl fun k s hm => hsubset k s (List.mem_cons_of_mem _ hm))
    simp only [getAllNestedKeys, specKeysParentFirst]
    exact (List.perm_append_comm).trans
      (List.Perm.append_left _ (loop nested (fun _ _ hm => hm)))

theorem mem_getAllNestedKeysNested (l : List (Str × GraphQLMappedFields))
    (pre : Str) (k : Str) (sub : GraphQLMappedFields) (hmem : (k, sub) ∈ l)
    (p : Str) (hp : p ∈ getAllNestedKeys sub (pre ++ k ++ ['.'])) :
    p ∈ getAllNestedKeysNested l pre := by
  induction l with
  | nil => cases hmem
  | cons q rest ihl =>
    rcases q with ⟨k0, s0⟩
    simp only [getAllNestedKeysNested]
    rcases List.mem_cons.mp hmem with heq | hmem2
    · obtain ⟨rfl, rfl⟩ := Prod.mk.injEq .. |>.mp heq.symm
      exact List.mem_append.mpr (Or.inl hp)
    · exact List.mem_append.mpr (Or.inr (ihl hmem2))

/-- C9 amended: the populate list holds exactly the keys of nestedFields
at every depth with their dotted prefixes, as a permutation of the
parent-first enumeration, and at every level all strictly deeper paths,
from all sibling subtrees in sibling order, precede the keys of that
level; hence every child path appears before its parent, but a parent key
follows, rather than precedes, the deep paths of its sibling subtrees. -/
theorem getAllNestedKeys_spec (f : GraphQLMappedFields) (pre : Str) :
    (getAllNestedKeys f pre).Perm (specKeysParentFirst f pre)
    ∧ (∀ (k : Str) (sub : GraphQLMappedFields), (k, sub) ∈ f.nestedFields →
        ∀ p ∈ getAllNestedKeys sub (pre ++ k ++ ['.']),
          ∀ (k2 : Str) (sub2 : GraphQLMappedFields),
            (k2, sub2) ∈ f.nestedFields →
            [p, pre ++ k2].Sublist (getAllNestedKeys f pre)) := by
  refine ⟨getAllNestedKeys_perm f pre, ?_⟩
  intro k sub hmem p hp k2 sub2 hmem2
  cases f with
  | mk flat nested =>
    simp only [GraphQLMappedFields.nestedFields] at hmem hmem2
    simp only [getAllNestedKeys]
    exact pair_sublist_append p (pre ++ k2) _ _
      (mem_getAllNestedKeysNested nested pre k sub hmem p hp)
      (List.mem_map.mpr ⟨(k2, sub2), hmem2, rfl⟩)

theorem getAllNestedKeys_spec_witness :
    (getAllNestedKeys exampleSiblingTree []).Perm
      (specKeysParentFirst exampleSiblingTree [])
    ∧ [['a', '.', 'c'], [] ++ ['a']].Sublist
        (getAllNestedKeys exampleSiblingTree []) :=
  ⟨(getAllNestedKeys_spec exampleSiblingTree []).1,
    (getAllNestedKeys_spec exampleSiblingTree []).2 ['a']
      (.mk [] [(['c'], .mk [] [])])
      (by simp [exampleSiblingTree, GraphQLMappedFields.nestedFields])
      ['a', '.', 'c'] (by decide) ['a'] (.mk [] [(['c'], .mk [] [])])
      (by simp [exampleSiblingTree, GraphQLMappedFields.nestedFields])⟩

/-- C9 as stated fails on the code: in a tree with two sibling
sub-objects each holding a nested sub-object, the populate list places
the deep path of the second sibling before the first sibling key itself,
so a parent does not appear before its sibling subtrees' paths. -/
theorem getAllNestedKeys_order_counterexample :
    getAllNestedKeys exampleSiblingTree []
      = [['a', '.', 'c'], ['b', '.', 'd'], ['a'], ['b']]
    ∧ ¬ [['a'], ['b', '.', 'd']].Sublist (getAllNestedKeys exampleSiblingTree []) := by
  refine ⟨by decide, by decide⟩

theorem branchB_holes_witness :
    ((searchNotesBranchB (1, [7], false) (fun _ => [])).envelope.items).length
        = [7].length
    ∧ ((searchNotesBranchB (1, [7], false) (fun _ => [])).envelope.items)[0]?
        = some none :=
  ⟨(branchB_holes (1, [7], false) (fun _ => [])).1,
    (branchB_holes (1, [7], false) (fun _ => [])).2 0 7 rfl
      (by intro n hn; cases hn)⟩

end NotesApi
